import Mathlib

/-!
Verification of the markup-directive stripping engine of the ignite
code-generation CLI, together with the surrounding substitution helpers
from `src/tools/react-native.ts`.

The engine itself (`applyDirectives` / `stripComments`, exercised by
`src/tools/__snapshots__/markup.test.ts.snap`) is not part of the source
tree we were given, so its definitions below are modelled from the
specification; the helpers of `react-native.ts` are translated from that
file directly.  Text is represented as `List Char`, a document as a list
of lines.
-/

namespace Ignite

/-- A line of raw text, with no trailing terminator. -/
abbrev Line := List Char

/-- Modelled from the spec: a `SyntaxDefinition` of the Comment Syntax
Catalog: a line-comment token and an optional block-comment open/close
token pair.  A missing token is represented by `none`. -/
structure SynDef where
  lineToken : Option Line
  blockOpen : Option Line
  blockClose : Option Line
deriving DecidableEq

/-- The line-comment token of a definition, `[]` when absent. -/
def lineTok (syn : SynDef) : Line := syn.lineToken.getD []

/-- The block-comment opening token of a definition, `[]` when absent. -/
def openTok (syn : SynDef) : Line := syn.blockOpen.getD []

/-- The block-comment closing token of a definition, `[]` when absent. -/
def closeTok (syn : SynDef) : Line := syn.blockClose.getD []

/-- Does `pat` occur at the very front of the second list? -/
def startsW : Line → Line → Bool
  | [], _ => true
  | _ :: _, [] => false
  | p :: ps, c :: cs => p == c && startsW ps cs

/-- Does `pat` occur as a contiguous substring of the second list? -/
def containsSub (pat : Line) : Line → Bool
  | [] => startsW pat []
  | c :: rest => startsW pat (c :: rest) || containsSub pat rest

/-- Modelled from the spec: the four directive kinds recognised by the
Directive Scanner. -/
inductive DirectiveKind where
  | RemoveCurrentLine
  | RemoveNextLine
  | RemoveBlockStart
  | RemoveBlockEnd
deriving DecidableEq

/-- Modelled from the spec: the failure taxonomy of the engine. -/
inductive MarkupError where
  | UnknownSyntax
  | UnterminatedBlock
deriving DecidableEq

/-- The literal marker for the remove-current-line directive. -/
def currentLineMarker : Line := "@test remove-current-line".data

/-- The literal marker for the remove-next-line directive. -/
def nextLineMarker : Line := "@test remove-next-line".data

/-- The literal marker for the remove-block-start directive. -/
def blockStartMarker : Line := "@test remove-block-start".data

/-- The literal marker for the remove-block-end directive. -/
def blockEndMarker : Line := "@test remove-block-end".data

/-- Does the line contain any of the four directive marker strings? -/
def containsMarker (l : Line) : Bool :=
  containsSub currentLineMarker l || containsSub nextLineMarker l ||
    containsSub blockStartMarker l || containsSub blockEndMarker l

/-- Modelled from the spec: the Directive Scanner.  After trimming
leading whitespace the line must begin with the line-comment token or,
for block syntaxes, with the block-comment opening token; the marker is
then matched as a substring anywhere after the opener.  A line that is
not a whole-line directive comment yields `none`. -/
def classify (syn : SynDef) (line : Line) : Option DirectiveKind :=
  let t := line.dropWhile Char.isWhitespace
  let isCommentLine :=
    (!(lineTok syn).isEmpty && startsW (lineTok syn) t) ||
      (!(openTok syn).isEmpty && startsW (openTok syn) t)
  if isCommentLine then
    if containsSub currentLineMarker t then some .RemoveCurrentLine
    else if containsSub nextLineMarker t then some .RemoveNextLine
    else if containsSub blockStartMarker t then some .RemoveBlockStart
    else if containsSub blockEndMarker t then some .RemoveBlockEnd
    else none
  else none

/-- Modelled from the spec: the Line-Removal Engine, a single forward
pass over the document with states `Normal` (`false`) and `InBlock`
(`true`).  A remove-current-line directive deletes itself; a
remove-next-line directive deletes itself and the following line when
one exists; a remove-block-start directive deletes itself and enters the
block state, in which every line is deleted until a remove-block-end
directive deletes itself and returns to normal; any other line is kept
unchanged; a document ending in the block state is an unterminated
block. -/
def runLines (syn : SynDef) : Bool → List Line → Except MarkupError (List Line)
  | false, [] => .ok []
  | true, [] => .error .UnterminatedBlock
  | false, l :: rest =>
    if classify syn l = some .RemoveCurrentLine then runLines syn false rest
    else if classify syn l = some .RemoveNextLine then
      match rest with
      | [] => .ok []
      | _ :: rest2 => runLines syn false rest2
    else if classify syn l = some .RemoveBlockStart then runLines syn true rest
    else
      match runLines syn false rest with
      | .ok out => .ok (l :: out)
      | .error e => .error e
  | true, l :: rest =>
    if classify syn l = some .RemoveBlockEnd then runLines syn false rest
    else runLines syn true rest

/-- Does the engine, walking the document exactly like `runLines`, ever
meet a remove-block-end directive while in the normal state? Such a
stray end marker is kept verbatim by the engine. -/
def strayEnds (syn : SynDef) : Bool → List Line → Bool
  | _, [] => false
  | false, l :: rest =>
    if classify syn l = some .RemoveCurrentLine then strayEnds syn false rest
    else if classify syn l = some .RemoveNextLine then
      match rest with
      | [] => false
      | _ :: rest2 => strayEnds syn false rest2
    else if classify syn l = some .RemoveBlockStart then strayEnds syn true rest
    else if classify syn l = some .RemoveBlockEnd then true
    else strayEnds syn false rest
  | true, l :: rest =>
    if classify syn l = some .RemoveBlockEnd then strayEnds syn false rest
    else strayEnds syn true rest

/-- Split a text into its lines at newline characters; the empty text is
one empty line. -/
def splitLines : List Char → List Line
  | [] => [[]]
  | c :: rest =>
    if c = '\n' then [] :: splitLines rest
    else
      match splitLines rest with
      | [] => [[c]]
      | l :: ls => (c :: l) :: ls

/-- Join lines back into a text with a single newline between lines. -/
def joinLines : List Line → List Char
  | [] => []
  | l :: ls =>
    match ls with
    | [] => l
    | _ :: _ => l ++ '\n' :: joinLines ls

/-- The number of lines of a text. -/
def lineCount (t : List Char) : Nat := (splitLines t).length

/-- Modelled from the spec: the C-family catalog entry with line token
`//` and block tokens `/*` and `*/`. -/
def cFamily : SynDef := ⟨some "//".data, some "/*".data, some "*/".data⟩

/-- Modelled from the spec: the shell/YAML catalog entry with line token
`#` and no block tokens. -/
def shellSyn : SynDef := ⟨some "#".data, none, none⟩

/-- Modelled from the spec: the block-only markup catalog entry with
block tokens `<!--` and `-->`. -/
def markupSyn : SynDef := ⟨none, some "<!--".data, some "-->".data⟩

/-- Modelled from the spec: the Comment Syntax Catalog lookup, failing
with `UnknownSyntax` for an unregistered identifier. -/
def lookup (sid : String) : Except MarkupError SynDef :=
  if sid = "c-family" then .ok cFamily
  else if sid = "shell" then .ok shellSyn
  else if sid = "markup" then .ok markupSyn
  else .error .UnknownSyntax

/-- Modelled from the spec: `applyDirectives(text, syntaxId)` looks the
definition up in the catalog, splits the text into lines, runs the
Line-Removal Engine starting in the normal state and joins the surviving
lines. -/
def applyDirectives (sid : String) (text : List Char) : Except MarkupError (List Char) :=
  match lookup sid with
  | .error e => .error e
  | .ok syn =>
    match runLines syn false (splitLines text) with
    | .error e => .error e
    | .ok out => .ok (joinLines out)

/-- Modelled from the spec: the character scanner of the Block Stripper
for one line.  The `Bool` is the inside-block-comment flag carried
across lines, the `Nat` counts characters of an already matched token
still to be consumed.  Outside a block, a block-comment opening token
starts a deleted span and sets the flag, and a line-comment token
deletes the rest of the line; inside a block every character is deleted
until the closing token clears the flag. -/
def stripChars (syn : SynDef) : Bool → Nat → List Char → Line × Bool
  | inB, _, [] => ([], inB)
  | inB, skip + 1, _ :: rest => stripChars syn inB skip rest
  | false, 0, c :: rest =>
    if !(openTok syn).isEmpty && startsW (openTok syn) (c :: rest) then
      stripChars syn true ((openTok syn).length - 1) rest
    else if !(lineTok syn).isEmpty && startsW (lineTok syn) (c :: rest) then
      ([], false)
    else
      ((c :: (stripChars syn false 0 rest).1), (stripChars syn false 0 rest).2)
  | true, 0, c :: rest =>
    if !(closeTok syn).isEmpty && startsW (closeTok syn) (c :: rest) then
      stripChars syn false ((closeTok syn).length - 1) rest
    else stripChars syn true 0 rest

/-- Modelled from the spec: the Block Stripper walks the lines carrying
the inside-block flag; every input line yields exactly one (possibly
empty) output line. -/
def stripLinesGo (syn : SynDef) : Bool → List Line → List Line
  | _, [] => []
  | inB, l :: rest =>
    (stripChars syn inB 0 l).1 :: stripLinesGo syn (stripChars syn inB 0 l).2 rest

/-- Modelled from the spec: `stripComments(text, syntaxId)` looks the
definition up in the catalog and strips all comment spans, preserving
the line structure. -/
def stripComments (sid : String) (text : List Char) : Except MarkupError (List Char) :=
  match lookup sid with
  | .error e => .error e
  | .ok syn => .ok (joinLines (stripLinesGo syn false (splitLines text)))

/-- The ECMAScript `LineTerminator` characters, which the regex dot and
the capture `(.*)` do not match and around which the multiline anchors
`^` and `$` match. -/
def isLineTerm (c : Char) : Bool :=
  c == '\n' || c == '\r' || c == '\u2028' || c == '\u2029'

/-- The characters matched by the ECMAScript regex class `\s`
(WhiteSpace and LineTerminator); in particular it matches the newline
itself. -/
def jsWhitespace (c : Char) : Bool :=
  c == ' ' || c == '\t' || c == '\n' || c == '\u000b' || c == '\u000c' || c == '\r' ||
    c == '\u00a0' || c == '\u1680' || (decide ('\u2000' ≤ c) && decide (c ≤ '\u200a')) ||
    c == '\u2028' || c == '\u2029' || c == '\u202f' || c == '\u205f' ||
    c == '\u3000' || c == '\ufeff'

/-- One pattern character of the regex `new RegExp(oldBundleIdentifier, "g")`
from `replaceMaestroBundleIds` in `src/tools/react-native.ts`: the
identifier's dots are the regex metacharacter `.` and match any
character except a line terminator, every other character of a bundle
identifier is a regex literal and matches itself. -/
def regexCharMatch (p c : Char) : Bool :=
  if p = '.' then !isLineTerm c else p == c

/-- Does the regex built from `pat` match a prefix of the second list
(one character per pattern character, dots as wildcards)? -/
def regexStartsW : List Char → List Char → Bool
  | [], _ => true
  | _ :: _, [] => false
  | p :: ps, c :: cs => regexCharMatch p c && regexStartsW ps cs

/-- Does the regex built from `pat` match anywhere in the list? -/
def regexContains (pat : List Char) : List Char → Bool
  | [] => regexStartsW pat []
  | c :: rest => regexStartsW pat (c :: rest) || regexContains pat rest

/-- Embedding of the JavaScript global regex replacement
`content.replace(new RegExp(oldBundleIdentifier, "g"), newBundleIdentifier)`
from `replaceMaestroBundleIds` in `src/tools/react-native.ts`: scan left
to right, rewrite each non-overlapping match of the regex built from
`pat` (dots matching any non-line-terminator character) to `repl` and
resume after it; every pattern character consumes exactly one content
character, so a match is `pat.length` characters long.  The `Nat` counts
characters of a matched occurrence still to be consumed. -/
def replaceAllGo (pat repl : List Char) : Nat → List Char → List Char
  | _, [] => []
  | skip + 1, _ :: rest => replaceAllGo pat repl skip rest
  | 0, c :: rest =>
    if !pat.isEmpty && regexStartsW pat (c :: rest) then
      repl ++ replaceAllGo pat repl (pat.length - 1) rest
    else c :: replaceAllGo pat repl 0 rest

/-- Replace every non-overlapping regex match of `pat` by `repl`, left
to right. -/
def replaceAll (pat repl content : List Char) : List Char :=
  replaceAllGo pat repl 0 content

/-- Embedding of the per-file content transformation of
`replaceMaestroBundleIds` from `src/tools/react-native.ts`: replace all
regex matches of the old bundle identifier with the new one (a bundle
identifier's only regex metacharacter is the dot). -/
def replaceMaestroBundleIds (oldB newB content : List Char) : List Char :=
  replaceAll oldB newB content

/-- Embedding of a JavaScript `String.replace` with a string (not regex)
pattern, which rewrites only the first occurrence: the text before the
first occurrence of `pat` is kept, the occurrence becomes `repl`, and
the rest is returned untouched. -/
def replaceFirst (pat repl : List Char) : List Char → List Char
  | [] => []
  | c :: rest =>
    if !pat.isEmpty && startsW pat (c :: rest) then
      repl ++ List.drop (pat.length - 1) rest
    else c :: replaceFirst pat repl rest

/-- The literal string `yarn`. -/
def yarnWord : List Char := "yarn".data

/-- Does the regex `/^yarn\s(.*)$/m` match at the head of this text
fragment: the four literal characters of `yarn` followed by at least one
more character whose class is `\s`?  (`\s` also matches a newline, so a
line consisting of exactly `yarn` matches together with its following
line.) -/
def yarnLineMatch (s : List Char) : Bool :=
  startsW yarnWord s &&
    match s.drop 4 with
    | c :: _ => jsWhitespace c
    | [] => false

/-- The capture `(.*)` of a match of `/^yarn\s(.*)$/m` starting at the
head of this text fragment: the greedy run of non-line-terminator
characters after `yarn` and the single `\s` character; the following
`$` always holds because the run stops at a line terminator or at the
end. -/
def yarnCapture (s : List Char) : List Char :=
  (s.drop 5).takeWhile (fun d => !isLineTerm d)

/-- Is this text fragment empty or does it begin with a line
terminator?  This is the shape of the text right after a greedy `(.*)`
capture. -/
def headTerm : List Char → Bool
  | [] => true
  | d :: _ => isLineTerm d

/-- Embedding of the global multiline regex replacement
`readmeContents.replace(/^yarn\s(.*)$/gm, (_, cmd) => packager.runCmd(cmd, ...))`
from `updatePackagerCommandsInReadme` in `src/tools/react-native.ts`.
The scanner walks the text one character at a time; the `Bool` records
whether the current position is a `^` position (start of text or just
after a line terminator) and the `Nat` counts characters of a matched
occurrence still to be consumed.  At a `^` position a match `yarn`,
one `\s` character, then the greedy newline-free capture is replaced by
the run command for the capture; because `\s` itself matches a newline,
a line consisting of exactly `yarn` is merged with its following line
into the run command for that following line. -/
def yarnScanGo (runCmd : List Char → List Char) : Bool → Nat → List Char → List Char
  | _, _, [] => []
  | _, skip + 1, c :: rest => yarnScanGo runCmd (isLineTerm c) skip rest
  | atStart, 0, c :: rest =>
    if atStart && yarnLineMatch (c :: rest) then
      runCmd (yarnCapture (c :: rest)) ++
        yarnScanGo runCmd false (4 + (yarnCapture (c :: rest)).length) rest
    else c :: yarnScanGo runCmd (isLineTerm c) 0 rest

/-- Embedding of `updatePackagerCommandsInReadme` from
`src/tools/react-native.ts`: first the string replacement
`readmeContents.replace("yarn", packager.installCmd(...))`, which
rewrites only the first occurrence of `yarn`, then the global multiline
regex replacement `/^yarn\s(.*)$/gm` rewriting every match to the
packager run command for the captured text.  The packager's install and
run commands live in `src/tools/packager.ts`, which is outside the given
sources, so they are abstract parameters here. -/
def updatePackagerCommandsInReadme (installCmd : List Char)
    (runCmd : List Char → List Char) (content : List Char) : List Char :=
  yarnScanGo runCmd true 0 (replaceFirst yarnWord installCmd content)

/-- A concrete packager run command used for witnesses: prepend
`npm run `. -/
def demoRunCmd (cmd : List Char) : List Char := "npm run ".data ++ cmd

/-- The result of gluegun's `filesystem.exists`: `"dir"`, `"file"`,
`"other"`, or `false` (here `absent`). -/
inductive ExistsResult where
  | dir
  | file
  | other
  | absent
deriving DecidableEq

/-- Embedding of gluegun's `strings.isBlank` applied to an environment
variable: true when the variable is unset or its value consists solely
of whitespace. -/
def isBlank : Option String → Bool
  | none => true
  | some s => s.data.all Char.isWhitespace

/-- Embedding of `isAndroidInstalled` from `src/tools/react-native.ts`:
the `ANDROID_HOME` environment variable must be non-blank and
`${ANDROID_HOME}/tools` must exist and be a directory.  The environment
and the filesystem query are passed explicitly. -/
def isAndroidInstalled (androidHome : Option String)
    (fsExists : List Char → ExistsResult) : Bool :=
  let hasAndroidEnv := !isBlank androidHome
  hasAndroidEnv && (fsExists ((androidHome.getD "").data ++ "/tools".data) == ExistsResult.dir)

/-! ## Step lemmas for the Line-Removal Engine -/

theorem runLines_current {syn : SynDef} {l : Line} (rest : List Line)
    (h : classify syn l = some .RemoveCurrentLine) :
    runLines syn false (l :: rest) = runLines syn false rest := by
  rw [runLines.eq_def]
  simp [h]

theorem runLines_next_nil {syn : SynDef} {l : Line}
    (h : classify syn l = some .RemoveNextLine) :
    runLines syn false [l] = .ok [] := by
  rw [runLines.eq_def]
  simp [h]

theorem runLines_next_cons {syn : SynDef} {l : Line} (x : Line) (rest2 : List Line)
    (h : classify syn l = some .RemoveNextLine) :
    runLines syn false (l :: x :: rest2) = runLines syn false rest2 := by
  rw [runLines.eq_def]
  simp [h]

theorem runLines_start {syn : SynDef} {l : Line} (rest : List Line)
    (h : classify syn l = some .RemoveBlockStart) :
    runLines syn false (l :: rest) = runLines syn true rest := by
  rw [runLines.eq_def]
  simp [h]

theorem runLines_keep_ok {syn : SynDef} {l : Line} {rest out : List Line}
    (hc : classify syn l = none ∨ classify syn l = some .RemoveBlockEnd)
    (h : runLines syn false rest = .ok out) :
    runLines syn false (l :: rest) = .ok (l :: out) := by
  rw [runLines.eq_def]
  rcases hc with hc | hc <;> simp [hc, h]

theorem runLines_keep_error {syn : SynDef} {l : Line} {rest : List Line} {e : MarkupError}
    (hc : classify syn l = none ∨ classify syn l = some .RemoveBlockEnd)
    (h : runLines syn false rest = .error e) :
    runLines syn false (l :: rest) = .error e := by
  rw [runLines.eq_def]
  rcases hc with hc | hc <;> simp [hc, h]

theorem runLines_end_inblock {syn : SynDef} {l : Line} (rest : List Line)
    (h : classify syn l = some .RemoveBlockEnd) :
    runLines syn true (l :: rest) = runLines syn false rest := by
  rw [runLines.eq_def]
  simp [h]

theorem runLines_skip_inblock {syn : SynDef} {l : Line} (rest : List Line)
    (h : classify syn l ≠ some .RemoveBlockEnd) :
    runLines syn true (l :: rest) = runLines syn true rest := by
  rw [runLines.eq_def]
  simp [h]

/-! ## Inert prefixes and block spans -/

theorem runLines_inert {syn : SynDef} : ∀ {ls : List Line},
    (∀ l ∈ ls, classify syn l = none) → runLines syn false ls = .ok ls := by
  intro ls
  induction ls with
  | nil => intro _; rfl
  | cons l rest ih =>
    intro h
    exact runLines_keep_ok (Or.inl (h l (by simp)))
      (ih fun x hx => h x (by simp [hx]))

theorem runLines_inert_append {syn : SynDef} : ∀ {pre : List Line} (tail : List Line),
    (∀ l ∈ pre, classify syn l = none) →
    runLines syn false (pre ++ tail) =
      match runLines syn false tail with
      | .ok out => .ok (pre ++ out)
      | .error e => .error e := by
  intro pre
  induction pre with
  | nil =>
    intro tail _
    cases h : runLines syn false tail <;> simp [h]
  | cons l pre2 ih =>
    intro tail h
    have h1 : classify syn l = none := h l (by simp)
    have h2 : ∀ x ∈ pre2, classify syn x = none := fun x hx => h x (by simp [hx])
    rw [List.cons_append]
    cases htail : runLines syn false tail with
    | ok out =>
      have := ih tail h2
      rw [htail] at this
      simpa using runLines_keep_ok (Or.inl h1) this
    | error e =>
      have := ih tail h2
      rw [htail] at this
      simpa using runLines_keep_error (Or.inl h1) this

theorem runLines_block_skip {syn : SynDef} : ∀ {mid : List Line} (tail : List Line),
    (∀ l ∈ mid, classify syn l ≠ some .RemoveBlockEnd) →
    runLines syn true (mid ++ tail) = runLines syn true tail := by
  intro mid
  induction mid with
  | nil => intro tail _; rfl
  | cons l mid2 ih =>
    intro tail h
    rw [List.cons_append, runLines_skip_inblock _ (h l (by simp))]
    exact ih tail fun x hx => h x (by simp [hx])

/-- A line that is not a remove-current-line, remove-next-line or
remove-block-start directive is an ordinary line or a stray
remove-block-end directive. -/
theorem classify_other {syn : SynDef} {l : Line}
    (h1 : classify syn l ≠ some .RemoveCurrentLine)
    (h2 : classify syn l ≠ some .RemoveNextLine)
    (h3 : classify syn l ≠ some .RemoveBlockStart) :
    classify syn l = none ∨ classify syn l = some .RemoveBlockEnd := by
  rcases h : classify syn l with _ | k
  · exact Or.inl rfl
  · cases k with
    | RemoveCurrentLine => exact absurd h h1
    | RemoveNextLine => exact absurd h h2
    | RemoveBlockStart => exact absurd h h3
    | RemoveBlockEnd => exact Or.inr rfl

/-! ## Step lemmas for the stray-end tracker -/

theorem strayEnds_current {syn : SynDef} {l : Line} (rest : List Line)
    (h : classify syn l = some .RemoveCurrentLine) :
    strayEnds syn false (l :: rest) = strayEnds syn false rest := by
  rw [strayEnds.eq_def]
  simp [h]

theorem strayEnds_next_cons {syn : SynDef} {l : Line} (x : Line) (rest2 : List Line)
    (h : classify syn l = some .RemoveNextLine) :
    strayEnds syn false (l :: x :: rest2) = strayEnds syn false rest2 := by
  rw [strayEnds.eq_def]
  simp [h]

theorem strayEnds_start {syn : SynDef} {l : Line} (rest : List Line)
    (h : classify syn l = some .RemoveBlockStart) :
    strayEnds syn false (l :: rest) = strayEnds syn true rest := by
  rw [strayEnds.eq_def]
  simp [h]

theorem strayEnds_end_normal {syn : SynDef} {l : Line} (rest : List Line)
    (h : classify syn l = some .RemoveBlockEnd) :
    strayEnds syn false (l :: rest) = true := by
  rw [strayEnds.eq_def]
  simp [h]

theorem strayEnds_none {syn : SynDef} {l : Line} (rest : List Line)
    (h : classify syn l = none) :
    strayEnds syn false (l :: rest) = strayEnds syn false rest := by
  rw [strayEnds.eq_def]
  simp [h]

theorem strayEnds_end_inblock {syn : SynDef} {l : Line} (rest : List Line)
    (h : classify syn l = some .RemoveBlockEnd) :
    strayEnds syn true (l :: rest) = strayEnds syn false rest := by
  rw [strayEnds.eq_def]
  simp [h]

theorem strayEnds_skip_inblock {syn : SynDef} {l : Line} (rest : List Line)
    (h : classify syn l ≠ some .RemoveBlockEnd) :
    strayEnds syn true (l :: rest) = strayEnds syn true rest := by
  rw [strayEnds.eq_def]
  simp [h]

/-! ## Shape of successful engine runs -/

/-- Every successful engine run returns a subsequence of the input
document: kept lines are kept verbatim and in order.  Moreover every
kept line is either an ordinary line or a stray remove-block-end
directive. -/
theorem runLines_ok_shape {syn : SynDef} : ∀ (b : Bool) (doc : List Line),
    ∀ out, runLines syn b doc = .ok out →
      out.Sublist doc ∧
        ∀ l ∈ out, classify syn l = none ∨ classify syn l = some .RemoveBlockEnd := by
  intro b doc
  induction b, doc using runLines.induct syn with
  | case1 =>
    intro out h
    rw [runLines] at h
    cases h
    simp
  | case2 =>
    intro out h
    rw [runLines] at h
    cases h
  | case3 l rest hc ih =>
    intro out h
    rw [runLines_current rest hc] at h
    obtain ⟨hs, hk⟩ := ih out h
    exact ⟨hs.cons l, hk⟩
  | case4 l _ hc =>
    intro out h
    rw [runLines_next_nil hc] at h
    cases h
    simp
  | case5 l _ hc x rest2 ih =>
    intro out h
    rw [runLines_next_cons x rest2 hc] at h
    obtain ⟨hs, hk⟩ := ih out h
    exact ⟨(hs.cons x).cons l, hk⟩
  | case6 l rest _ _ hc ih =>
    intro out h
    rw [runLines_start rest hc] at h
    obtain ⟨hs, hk⟩ := ih out h
    exact ⟨hs.cons l, hk⟩
  | case7 l rest h1 h2 h3 out0 hok ih =>
    intro out h
    have hcl := classify_other h1 h2 h3
    rw [runLines_keep_ok hcl hok] at h
    cases h
    obtain ⟨hs, hk⟩ := ih out0 hok
    refine ⟨hs.cons₂ l, ?_⟩
    intro x hx
    rcases List.mem_cons.mp hx with rfl | hx
    · exact hcl
    · exact hk x hx
  | case8 l rest h1 h2 h3 e herr ih =>
    intro out h
    rw [runLines_keep_error (classify_other h1 h2 h3) herr] at h
    cases h
  | case9 l rest hc ih =>
    intro out h
    rw [runLines_end_inblock rest hc] at h
    obtain ⟨hs, hk⟩ := ih out h
    exact ⟨hs.cons l, hk⟩
  | case10 l rest hc ih =>
    intro out h
    rw [runLines_skip_inblock rest hc] at h
    obtain ⟨hs, hk⟩ := ih out h
    exact ⟨hs.cons l, hk⟩

/-- In a run in which every marker-bearing line is a whole-line
directive comment and no stray remove-block-end marker is met, every
kept line is free of the four marker strings. -/
theorem runLines_marker_free {syn : SynDef} : ∀ (b : Bool) (doc : List Line),
    (∀ l ∈ doc, containsMarker l = true → classify syn l ≠ none) →
    strayEnds syn b doc = false →
    ∀ out, runLines syn b doc = .ok out →
      ∀ l ∈ out, containsMarker l = false := by
  intro b doc
  induction b, doc using runLines.induct syn with
  | case1 =>
    intro _ _ out h
    rw [runLines] at h
    cases h
    simp
  | case2 =>
    intro _ _ out h
    rw [runLines] at h
    cases h
  | case3 l rest hc ih =>
    intro hm hse out h
    rw [runLines_current rest hc] at h
    rw [strayEnds_current rest hc] at hse
    exact ih (fun x hx => hm x (by simp [hx])) hse out h
  | case4 l _ hc =>
    intro _ _ out h
    rw [runLines_next_nil hc] at h
    cases h
    simp
  | case5 l _ hc x rest2 ih =>
    intro hm hse out h
    rw [runLines_next_cons x rest2 hc] at h
    rw [strayEnds_next_cons x rest2 hc] at hse
    exact ih (fun y hy => hm y (by simp [hy])) hse out h
  | case6 l rest _ _ hc ih =>
    intro hm hse out h
    rw [runLines_start rest hc] at h
    rw [strayEnds_start rest hc] at hse
    exact ih (fun x hx => hm x (by simp [hx])) hse out h
  | case7 l rest h1 h2 h3 out0 hok ih =>
    intro hm hse out h
    have hcl := classify_other h1 h2 h3
    have hnone : classify syn l = none := by
      rcases hcl with hcl | hcl
      · exact hcl
      · rw [strayEnds_end_normal rest hcl] at hse
        cases hse
    rw [runLines_keep_ok hcl hok] at h
    cases h
    rw [strayEnds_none rest hnone] at hse
    intro x hx
    rcases List.mem_cons.mp hx with rfl | hx
    · by_cases hmx : containsMarker x = true
      · exact absurd hnone (hm x (by simp) hmx)
      · simpa using hmx
    · exact ih (fun y hy => hm y (by simp [hy])) hse out0 hok x hx
  | case8 l rest h1 h2 h3 e herr ih =>
    intro _ _ out h
    rw [runLines_keep_error (classify_other h1 h2 h3) herr] at h
    cases h
  | case9 l rest hc ih =>
    intro hm hse out h
    rw [runLines_end_inblock rest hc] at h
    rw [strayEnds_end_inblock rest hc] at hse
    exact ih (fun x hx => hm x (by simp [hx])) hse out h
  | case10 l rest hc ih =>
    intro hm hse out h
    rw [runLines_skip_inblock rest hc] at h
    rw [strayEnds_skip_inblock rest hc] at hse
    exact ih (fun x hx => hm x (by simp [hx])) hse out h

/-! ## Lines of a text -/

theorem splitLines_ne_nil : ∀ (t : List Char), splitLines t ≠ [] := by
  intro t
  induction t with
  | nil => simp [splitLines]
  | cons c rest ih =>
    rw [splitLines]
    by_cases hc : c = '\n'
    · simp [hc]
    · rw [if_neg hc]
      cases h : splitLines rest <;> simp

theorem splitLines_no_newline : ∀ (t : List Char), ∀ l ∈ splitLines t, '\n' ∉ l := by
  intro t
  induction t with
  | nil =>
    intro l hl
    rw [splitLines] at hl
    simp at hl
    simp [hl]
  | cons c rest ih =>
    intro l hl
    rw [splitLines] at hl
    by_cases hc : c = '\n'
    · rw [if_pos hc] at hl
      rcases List.mem_cons.mp hl with rfl | hl
      · simp
      · exact ih l hl
    · rw [if_neg hc] at hl
      cases h : splitLines rest with
      | nil => exact absurd h (splitLines_ne_nil rest)
      | cons l0 ls =>
        rw [h] at hl
        rcases List.mem_cons.mp hl with rfl | hl
        · intro hmem
          rcases List.mem_cons.mp hmem with h1 | h1
          · exact hc h1.symm
          · exact ih l0 (h ▸ List.mem_cons_self l0 ls) h1
        · exact ih l (h ▸ List.mem_cons_of_mem l0 hl)

theorem splitLines_single : ∀ {l : Line}, '\n' ∉ l → splitLines l = [l] := by
  intro l
  induction l with
  | nil => intro _; rfl
  | cons c rest ih =>
    intro h
    have hc : c ≠ '\n' := fun hcc => h (by simp [hcc])
    have hrest : '\n' ∉ rest := fun hr => h (List.mem_cons_of_mem c hr)
    rw [splitLines, if_neg hc, ih hrest]

theorem splitLines_append_newline {l : Line} (t : List Char) (h : '\n' ∉ l) :
    splitLines (l ++ '\n' :: t) = l :: splitLines t := by
  induction l with
  | nil => simp [splitLines]
  | cons c rest ih =>
    have hc : c ≠ '\n' := fun hcc => h (by simp [hcc])
    have hrest : '\n' ∉ rest := fun hr => h (List.mem_cons_of_mem c hr)
    rw [List.cons_append, splitLines, if_neg hc, ih hrest]

theorem splitLines_joinLines : ∀ {ls : List Line},
    (∀ l ∈ ls, '\n' ∉ l) → ls ≠ [] → splitLines (joinLines ls) = ls := by
  intro ls
  induction ls with
  | nil => intro _ h; exact absurd rfl h
  | cons l ls2 ih =>
    intro h _
    cases ls2 with
    | nil => exact splitLines_single (h l (by simp))
    | cons l2 ls3 =>
      rw [joinLines]
      rw [splitLines_append_newline _ (h l (by simp))]
      rw [ih (fun x hx => h x (List.mem_cons_of_mem l hx)) (by simp)]

/-! ## The Block Stripper keeps the line structure -/

theorem stripChars_mem {syn : SynDef} : ∀ (l : List Char) (b : Bool) (k : Nat),
    ∀ c ∈ (stripChars syn b k l).1, c ∈ l := by
  intro l
  induction l with
  | nil =>
    intro b k c hc
    rw [stripChars] at hc
    simp at hc
  | cons c0 rest ih =>
    intro b k c hc
    match b, k with
    | b, k + 1 =>
      rw [stripChars] at hc
      exact List.mem_cons_of_mem c0 (ih b k c hc)
    | false, 0 =>
      rw [stripChars] at hc
      by_cases h1 : (!(openTok syn).isEmpty && startsW (openTok syn) (c0 :: rest)) = true
      · rw [if_pos h1] at hc
        exact List.mem_cons_of_mem c0 (ih true ((openTok syn).length - 1) c hc)
      · rw [if_neg h1] at hc
        by_cases h2 : (!(lineTok syn).isEmpty && startsW (lineTok syn) (c0 :: rest)) = true
        · rw [if_pos h2] at hc
          simp at hc
        · rw [if_neg h2] at hc
          rcases List.mem_cons.mp hc with rfl | hc
          · simp
          · exact List.mem_cons_of_mem c0 (ih false 0 c hc)
    | true, 0 =>
      rw [stripChars] at hc
      by_cases h1 : (!(closeTok syn).isEmpty && startsW (closeTok syn) (c0 :: rest)) = true
      · rw [if_pos h1] at hc
        exact List.mem_cons_of_mem c0 (ih false ((closeTok syn).length - 1) c hc)
      · rw [if_neg h1] at hc
        exact List.mem_cons_of_mem c0 (ih true 0 c hc)

theorem stripLinesGo_length {syn : SynDef} : ∀ (ls : List Line) (b : Bool),
    (stripLinesGo syn b ls).length = ls.length := by
  intro ls
  induction ls with
  | nil => intro b; rfl
  | cons l rest ih =>
    intro b
    rw [stripLinesGo]
    simp [ih]

theorem stripLinesGo_no_newline {syn : SynDef} : ∀ (ls : List Line) (b : Bool),
    (∀ l ∈ ls, '\n' ∉ l) → ∀ l ∈ stripLinesGo syn b ls, '\n' ∉ l := by
  intro ls
  induction ls with
  | nil =>
    intro b _ l hl
    rw [stripLinesGo] at hl
    simp at hl
  | cons l0 rest ih =>
    intro b h l hl
    rw [stripLinesGo] at hl
    rcases List.mem_cons.mp hl with rfl | hl
    · intro hmem
      exact h l0 (by simp) (stripChars_mem l0 b 0 _ hmem)
    · exact ih _ (fun x hx => h x (List.mem_cons_of_mem l0 hx)) l hl

/-! ## Substring occurrences across line joins -/

theorem startsW_append_newline {pat : Line} (hp : '\n' ∉ pat) :
    ∀ (a b : List Char), startsW pat (a ++ '\n' :: b) = true → startsW pat a = true := by
  induction pat with
  | nil => intro a b _; rfl
  | cons p ps ih =>
    intro a b h
    cases a with
    | nil =>
      rw [List.nil_append, startsW] at h
      have hpn : p ≠ '\n' := fun hh => hp (by simp [hh])
      simp [hpn] at h
    | cons c a2 =>
      rw [List.cons_append, startsW] at h
      rw [startsW]
      rcases Bool.and_eq_true_iff.mp h with ⟨h1, h2⟩
      rw [h1]
      have hps : '\n' ∉ ps := fun hh => hp (List.mem_cons_of_mem p hh)
      rw [Bool.true_and]
      exact ih hps a2 b h2

theorem containsSub_cons_of {pat : Line} {l : Line} (c : Char)
    (h : containsSub pat l = true) : containsSub pat (c :: l) = true := by
  rw [containsSub, h, Bool.or_true]

theorem containsSub_append_newline {pat : Line} (hp : '\n' ∉ pat) :
    ∀ (a b : List Char), containsSub pat (a ++ '\n' :: b) = true →
      containsSub pat a = true ∨ containsSub pat b = true := by
  intro a
  induction a with
  | nil =>
    intro b h
    rw [List.nil_append, containsSub] at h
    rcases Bool.or_eq_true_iff.mp h with h | h
    · cases pat with
      | nil => exact Or.inl rfl
      | cons p ps =>
        rw [startsW] at h
        have hpn : p ≠ '\n' := fun hh => hp (by simp [hh])
        simp [hpn] at h
    · exact Or.inr h
  | cons c a2 ih =>
    intro b h
    rw [List.cons_append, containsSub] at h
    rcases Bool.or_eq_true_iff.mp h with h | h
    · rw [← List.cons_append] at h
      exact Or.inl (by
        rw [containsSub]
        rw [startsW_append_newline hp _ b h]
        rfl)
    · rcases ih b h with h | h
      · exact Or.inl (containsSub_cons_of c h)
      · exact Or.inr h

theorem joinLines_clean {pat : Line} (hp : '\n' ∉ pat) (hne : pat ≠ []) : ∀ (ls : List Line),
    (∀ l ∈ ls, containsSub pat l = false) → containsSub pat (joinLines ls) = false := by
  intro ls
  induction ls with
  | nil =>
    intro _
    rw [joinLines]
    cases pat with
    | nil => exact absurd rfl hne
    | cons p ps => rfl
  | cons l ls2 ih =>
    intro h
    cases ls2 with
    | nil => rw [joinLines]; exact h l (by simp)
    | cons l2 ls3 =>
      rw [joinLines]
      cases hc : containsSub pat (l ++ '\n' :: joinLines (l2 :: ls3)) with
      | false => rfl
      | true =>
        exfalso
        rcases containsSub_append_newline hp l _ hc with hin | hin
        · rw [h l (by simp)] at hin
          cases hin
        · rw [ih (fun x hx => h x (List.mem_cons_of_mem l hx))] at hin
          cases hin

/-! ## The Block Stripper leaves no comment openers (C-family, shell) -/

theorem openTok_cFamily : openTok cFamily = ['/', '*'] := rfl

theorem lineTok_cFamily : lineTok cFamily = ['/', '/'] := rfl

theorem closeTok_cFamily : closeTok cFamily = ['*', '/'] := rfl

theorem openTok_shell : openTok shellSyn = [] := rfl

theorem lineTok_shell : lineTok shellSyn = ['#'] := rfl

theorem closeTok_shell : closeTok shellSyn = [] := rfl

/-- Keep-step of the C-family stripper on a character other than the
slash that both C-family comment tokens begin with. -/
theorem stripChars_cFamily_keep {d : Char} (r2 : List Char) (hd : d ≠ '/') :
    stripChars cFamily false 0 (d :: r2) =
      ((d :: (stripChars cFamily false 0 r2).1), (stripChars cFamily false 0 r2).2) := by
  rw [stripChars]
  have e1 : startsW (openTok cFamily) (d :: r2) = false := by
    rw [openTok_cFamily, startsW, beq_eq_false_iff_ne.mpr (Ne.symm hd), Bool.false_and]
  have e2 : startsW (lineTok cFamily) (d :: r2) = false := by
    rw [lineTok_cFamily, startsW, beq_eq_false_iff_ne.mpr (Ne.symm hd), Bool.false_and]
  rw [e1, e2]
  simp

/-- The C-family stripper never emits an occurrence of `//` or `/*`. -/
theorem stripChars_cFamily_clean : ∀ (l : List Char) (b : Bool) (k : Nat),
    containsSub ['/', '/'] (stripChars cFamily b k l).1 = false ∧
      containsSub ['/', '*'] (stripChars cFamily b k l).1 = false := by
  intro l
  induction l with
  | nil =>
    intro b k
    rw [stripChars]
    exact ⟨rfl, rfl⟩
  | cons c0 rest ih =>
    intro b k
    match b, k with
    | b, k + 1 =>
      rw [stripChars]
      exact ih b k
    | true, 0 =>
      rw [stripChars]
      by_cases h1 : (!(closeTok cFamily).isEmpty && startsW (closeTok cFamily) (c0 :: rest)) = true
      · rw [if_pos h1]
        exact ih false ((closeTok cFamily).length - 1)
      · rw [if_neg h1]
        exact ih true 0
    | false, 0 =>
      rw [stripChars]
      by_cases h1 : (!(openTok cFamily).isEmpty && startsW (openTok cFamily) (c0 :: rest)) = true
      · rw [if_pos h1]
        exact ih true ((openTok cFamily).length - 1)
      · rw [if_neg h1]
        by_cases h2 : (!(lineTok cFamily).isEmpty && startsW (lineTok cFamily) (c0 :: rest)) = true
        · rw [if_pos h2]
          exact ⟨rfl, rfl⟩
        · rw [if_neg h2]
          obtain ⟨ihl, iho⟩ := ih false 0
          by_cases hc0 : c0 = '/'
          · subst hc0
            have g1 : startsW ['*'] rest = false := by
              rcases hs : startsW ['*'] rest with _ | _
              · rfl
              · exact absurd (by rw [openTok_cFamily, startsW, hs]; rfl) h1
            have g2 : startsW ['/'] rest = false := by
              rcases hs : startsW ['/'] rest with _ | _
              · rfl
              · exact absurd (by rw [lineTok_cFamily, startsW, hs]; rfl) h2
            have key : startsW ['/'] (stripChars cFamily false 0 rest).1 = false ∧
                startsW ['*'] (stripChars cFamily false 0 rest).1 = false := by
              cases rest with
              | nil =>
                rw [stripChars]
                exact ⟨rfl, rfl⟩
              | cons d r2 =>
                have hd1 : d ≠ '*' := by
                  intro hdd
                  rw [startsW, hdd] at g1
                  simp [startsW] at g1
                have hd2 : d ≠ '/' := by
                  intro hdd
                  rw [startsW, hdd] at g2
                  simp [startsW] at g2
                rw [stripChars_cFamily_keep r2 hd2]
                constructor
                · rw [startsW, beq_eq_false_iff_ne.mpr (Ne.symm hd2), Bool.false_and]
                · rw [startsW, beq_eq_false_iff_ne.mpr (Ne.symm hd1), Bool.false_and]
            constructor
            · rw [containsSub, ihl, Bool.or_false, startsW, key.1, Bool.and_false]
            · rw [containsSub, iho, Bool.or_false, startsW, key.2, Bool.and_false]
          · constructor
            · rw [containsSub, ihl, Bool.or_false, startsW,
                beq_eq_false_iff_ne.mpr (Ne.symm hc0), Bool.false_and]
            · rw [containsSub, iho, Bool.or_false, startsW,
                beq_eq_false_iff_ne.mpr (Ne.symm hc0), Bool.false_and]

/-- The shell stripper never emits an occurrence of `#`. -/
theorem stripChars_shell_clean : ∀ (l : List Char) (b : Bool) (k : Nat),
    containsSub ['#'] (stripChars shellSyn b k l).1 = false := by
  intro l
  induction l with
  | nil =>
    intro b k
    rw [stripChars]
    rfl
  | cons c0 rest ih =>
    intro b k
    match b, k with
    | b, k + 1 =>
      rw [stripChars]
      exact ih b k
    | true, 0 =>
      rw [stripChars]
      have e1 : (!(closeTok shellSyn).isEmpty && startsW (closeTok shellSyn) (c0 :: rest)) = false := by
        rw [closeTok_shell]
        rfl
      rw [e1, if_neg (by simp)]
      exact ih true 0
    | false, 0 =>
      rw [stripChars]
      have e1 : (!(openTok shellSyn).isEmpty && startsW (openTok shellSyn) (c0 :: rest)) = false := by
        rw [openTok_shell]
        rfl
      rw [e1, if_neg (by simp)]
      by_cases h2 : (!(lineTok shellSyn).isEmpty && startsW (lineTok shellSyn) (c0 :: rest)) = true
      · rw [if_pos h2]
        rfl
      · rw [if_neg h2]
        have hc0 : c0 ≠ '#' := by
          intro hdd
          refine h2 ?_
          rw [lineTok_shell, startsW, hdd, beq_self_eq_true]
          rfl
        rw [containsSub, ih false 0, Bool.or_false, startsW,
          beq_eq_false_iff_ne.mpr (Ne.symm hc0), Bool.false_and]

/-- Every line emitted by the C-family Block Stripper is free of `//`
and `/*`. -/
theorem stripLinesGo_cFamily_clean : ∀ (ls : List Line) (b : Bool),
    ∀ l ∈ stripLinesGo cFamily b ls,
      containsSub ['/', '/'] l = false ∧ containsSub ['/', '*'] l = false := by
  intro ls
  induction ls with
  | nil =>
    intro b l hl
    rw [stripLinesGo] at hl
    simp at hl
  | cons l0 rest ih =>
    intro b l hl
    rw [stripLinesGo] at hl
    rcases List.mem_cons.mp hl with rfl | hl
    · exact stripChars_cFamily_clean l0 b 0
    · exact ih _ l hl

/-- Every line emitted by the shell Block Stripper is free of `#`. -/
theorem stripLinesGo_shell_clean : ∀ (ls : List Line) (b : Bool),
    ∀ l ∈ stripLinesGo shellSyn b ls, containsSub ['#'] l = false := by
  intro ls
  induction ls with
  | nil =>
    intro b l hl
    rw [stripLinesGo] at hl
    simp at hl
  | cons l0 rest ih =>
    intro b l hl
    rw [stripLinesGo] at hl
    rcases List.mem_cons.mp hl with rfl | hl
    · exact stripChars_shell_clean l0 b 0
    · exact ih _ l hl

/-! ## String replacement -/

theorem startsW_append_self : ∀ (l t : List Char), startsW l (l ++ t) = true := by
  intro l
  induction l with
  | nil => intro t; rfl
  | cons c l2 ih =>
    intro t
    rw [List.cons_append, startsW, beq_self_eq_true, Bool.true_and]
    exact ih t

theorem replaceAllGo_skip (pat repl : List Char) : ∀ (a b : List Char),
    replaceAllGo pat repl a.length (a ++ b) = replaceAllGo pat repl 0 b := by
  intro a
  induction a with
  | nil => intro b; rfl
  | cons c a2 ih =>
    intro b
    rw [List.cons_append, List.length_cons, replaceAllGo]
    exact ih b

theorem regexStartsW_append_same_length : ∀ (pat mid suf : List Char),
    pat.length = mid.length → regexStartsW pat (mid ++ suf) = regexStartsW pat mid := by
  intro pat
  induction pat with
  | nil => intro mid suf _; rfl
  | cons p ps ih =>
    intro mid suf hlen
    cases mid with
    | nil => simp at hlen
    | cons m ms =>
      rw [List.cons_append, regexStartsW, regexStartsW]
      rw [ih ms suf (by simpa using hlen)]

/-- A global regex replacement rewrites the leftmost match of the
pattern and continues after it. -/
theorem replaceAll_leftmost (pat repl : List Char) : ∀ (pre mid suf : List Char),
    pat ≠ [] → mid.length = pat.length → regexStartsW pat mid = true →
    (∀ n, n < pre.length → regexStartsW pat (List.drop n (pre ++ mid ++ suf)) = false) →
    replaceAll pat repl (pre ++ mid ++ suf) = pre ++ repl ++ replaceAll pat repl suf := by
  intro pre
  induction pre with
  | nil =>
    intro mid suf hne hlen hmatch _
    cases mid with
    | nil =>
      exfalso
      cases pat with
      | nil => exact hne rfl
      | cons p ps => simp at hlen
    | cons m ms =>
      rw [List.nil_append, replaceAll, List.cons_append, replaceAllGo]
      have hguard : (!pat.isEmpty && regexStartsW pat (m :: (ms ++ suf))) = true := by
        rw [← List.cons_append, regexStartsW_append_same_length pat (m :: ms) suf hlen.symm,
          hmatch]
        cases pat with
        | nil => exact absurd rfl hne
        | cons p ps => rfl
      rw [if_pos hguard]
      have hlen2 : pat.length - 1 = ms.length := by
        rw [← hlen]
        simp
      rw [hlen2, replaceAllGo_skip, List.nil_append, replaceAll]
  | cons c pre2 ih =>
    intro mid suf hne hlen hmatch h
    have h0 : regexStartsW pat (c :: (pre2 ++ mid ++ suf)) = false := by
      have := h 0 (by simp)
      rwa [List.cons_append, List.cons_append, List.drop_zero] at this
    have hstep : replaceAll pat repl ((c :: pre2) ++ mid ++ suf) =
        c :: replaceAll pat repl (pre2 ++ mid ++ suf) := by
      have e : (c :: pre2) ++ mid ++ suf = c :: (pre2 ++ mid ++ suf) := by simp
      rw [replaceAll, e, replaceAllGo, h0, Bool.and_false, if_neg (by simp), replaceAll]
    rw [hstep]
    rw [ih mid suf hne hlen hmatch (fun n hn => by
      have := h (n + 1) (by simpa using hn)
      rwa [List.cons_append, List.cons_append, List.drop_succ_cons] at this)]
    simp

/-- A global regex replacement leaves match-free content unchanged. -/
theorem replaceAll_no_match (pat repl : List Char) : ∀ (l : List Char),
    regexContains pat l = false → replaceAll pat repl l = l := by
  intro l
  induction l with
  | nil => intro _; rfl
  | cons c rest ih =>
    intro h
    rw [regexContains] at h
    rcases Bool.or_eq_false_iff.mp h with ⟨h1, h2⟩
    rw [replaceAll, replaceAllGo, h1, Bool.and_false, if_neg (by simp)]
    rw [replaceAll] at ih
    rw [ih h2]

/-- A first-occurrence replacement rewrites the leftmost occurrence of
the pattern and keeps the rest of the text untouched. -/
theorem replaceFirst_leftmost (pat repl : List Char) : ∀ (pre suf : List Char),
    pat ≠ [] →
    (∀ n, n < pre.length → startsW pat (List.drop n (pre ++ pat ++ suf)) = false) →
    replaceFirst pat repl (pre ++ pat ++ suf) = pre ++ repl ++ suf := by
  intro pre
  induction pre with
  | nil =>
    intro suf hne _
    cases pat with
    | nil => exact absurd rfl hne
    | cons p ps =>
      rw [List.nil_append, List.cons_append, replaceFirst]
      have hguard : (!(p :: ps).isEmpty && startsW (p :: ps) (p :: (ps ++ suf))) = true := by
        rw [← List.cons_append, startsW_append_self]
        rfl
      rw [if_pos hguard]
      have hlen : (p :: ps).length - 1 = ps.length := by simp
      rw [hlen, List.drop_left, List.nil_append]
  | cons c pre2 ih =>
    intro suf hne h
    have h0 : startsW pat (c :: (pre2 ++ pat ++ suf)) = false := by
      have := h 0 (by simp)
      rwa [List.cons_append, List.cons_append, List.drop_zero] at this
    have hstep : replaceFirst pat repl ((c :: pre2) ++ pat ++ suf) =
        c :: replaceFirst pat repl (pre2 ++ pat ++ suf) := by
      have e : (c :: pre2) ++ pat ++ suf = c :: (pre2 ++ pat ++ suf) := by simp
      rw [e, replaceFirst, h0, Bool.and_false, if_neg (by simp)]
    rw [hstep]
    rw [ih suf hne (fun n hn => by
      have := h (n + 1) (by simpa using hn)
      rwa [List.cons_append, List.cons_append, List.drop_succ_cons] at this)]
    simp

/-- A first-occurrence replacement leaves a text without occurrences
unchanged. -/
theorem replaceFirst_no_occurrence (pat repl : List Char) : ∀ (l : List Char),
    containsSub pat l = false → replaceFirst pat repl l = l := by
  intro l
  induction l with
  | nil => intro _; rfl
  | cons c rest ih =>
    intro h
    rw [containsSub] at h
    rcases Bool.or_eq_false_iff.mp h with ⟨h1, h2⟩
    rw [replaceFirst, h1, Bool.and_false, if_neg (by simp)]
    rw [ih h2]

/-! ## The yarn-line scanner -/

theorem yarnScanGo_skip (runCmd : List Char → List Char) :
    ∀ (a : List Char) (b : Bool) (s : List Char),
      yarnScanGo runCmd b a.length (a ++ s) =
        yarnScanGo runCmd (a.foldl (fun _ d => isLineTerm d) b) 0 s := by
  intro a
  induction a with
  | nil =>
    intro b s
    rw [List.nil_append, List.foldl_nil]
    rfl
  | cons c a2 ih =>
    intro b s
    rw [List.cons_append, List.length_cons, yarnScanGo, List.foldl_cons]
    exact ih (isLineTerm c) s

theorem foldl_lineTerm_false : ∀ (a : List Char),
    (∀ d ∈ a, isLineTerm d = false) →
    a.foldl (fun _ d => isLineTerm d) false = false := by
  intro a
  induction a with
  | nil => intro _; rfl
  | cons c a2 ih =>
    intro h
    rw [List.foldl_cons]
    have hc : isLineTerm c = false := h c (by simp)
    rw [hc]
    exact ih (fun d hd => h d (by simp [hd]))

theorem foldl_lineTerm_init : ∀ (a : List Char) (b1 b2 : Bool), a ≠ [] →
    a.foldl (fun _ d => isLineTerm d) b1 = a.foldl (fun _ d => isLineTerm d) b2 := by
  intro a
  induction a with
  | nil => intro b1 b2 h; exact absurd rfl h
  | cons c a2 _ =>
    intro b1 b2 _
    rw [List.foldl_cons, List.foldl_cons]

theorem takeWhile_append_term : ∀ (cmd s : List Char),
    (∀ d ∈ cmd, isLineTerm d = false) → headTerm s = true →
    (cmd ++ s).takeWhile (fun d => !isLineTerm d) = cmd := by
  intro cmd
  induction cmd with
  | nil =>
    intro s _ hs
    cases s with
    | nil => rfl
    | cons d s3 =>
      rw [headTerm] at hs
      rw [List.nil_append, List.takeWhile_cons]
      simp [hs]
  | cons c cmd2 ih =>
    intro s h hs
    rw [List.cons_append, List.takeWhile_cons]
    have hc : isLineTerm c = false := h c (by simp)
    simp only [hc, Bool.not_false, if_true]
    rw [ih s (fun d hd => h d (by simp [hd])) hs]

/-- A match of the readme regex at a line start whose single whitespace
character is not a line terminator rewrites `yarn`, the whitespace and
the rest of the line to the run command for the rest of the line. -/
theorem yarnScanGo_line (runCmd : List Char → List Char) (c : Char) (cmd s : List Char)
    (hws : jsWhitespace c = true) (hct : isLineTerm c = false)
    (hcmd : ∀ d ∈ cmd, isLineTerm d = false) (hs : headTerm s = true) :
    yarnScanGo runCmd true 0 (yarnWord ++ c :: (cmd ++ s)) =
      runCmd cmd ++ yarnScanGo runCmd false 0 s := by
  have e : yarnWord ++ c :: (cmd ++ s) = 'y' :: ('a' :: 'r' :: 'n' :: c :: (cmd ++ s)) := rfl
  rw [e, yarnScanGo]
  have em : yarnLineMatch ('y' :: 'a' :: 'r' :: 'n' :: c :: (cmd ++ s)) = jsWhitespace c := rfl
  have hcap : yarnCapture ('y' :: 'a' :: 'r' :: 'n' :: c :: (cmd ++ s)) = cmd :=
    takeWhile_append_term cmd s hcmd hs
  rw [if_pos (by rw [em, hws]; rfl)]
  rw [hcap]
  have e2 : ('a' :: 'r' :: 'n' :: c :: (cmd ++ s)) = ('a' :: 'r' :: 'n' :: c :: cmd) ++ s := by
    simp
  have e3 : 4 + cmd.length = ('a' :: 'r' :: 'n' :: c :: cmd).length := by
    simp
    omega
  rw [e2, e3, yarnScanGo_skip]
  have e4 : ('a' :: 'r' :: 'n' :: c :: cmd).foldl (fun _ d => isLineTerm d) false = false := by
    apply foldl_lineTerm_false
    intro d hd
    simp only [List.mem_cons] at hd
    rcases hd with rfl | rfl | rfl | rfl | hd
    · decide
    · decide
    · decide
    · exact hct
    · exact hcmd d hd
  rw [e4]

/-- A line consisting of exactly `yarn` is merged by the readme regex
with its following line: the `\s` of the pattern matches the newline
and the capture is the entire following line. -/
theorem yarnScanGo_merge (runCmd : List Char → List Char) (next s2 : List Char)
    (hnext : ∀ d ∈ next, isLineTerm d = false) (hne : next ≠ [])
    (hs2 : headTerm s2 = true) :
    yarnScanGo runCmd true 0 (yarnWord ++ '\n' :: (next ++ s2)) =
      runCmd next ++ yarnScanGo runCmd false 0 s2 := by
  have e : yarnWord ++ '\n' :: (next ++ s2) =
      'y' :: ('a' :: 'r' :: 'n' :: '\n' :: (next ++ s2)) := rfl
  rw [e, yarnScanGo]
  have em : yarnLineMatch ('y' :: 'a' :: 'r' :: 'n' :: '\n' :: (next ++ s2)) =
      jsWhitespace '\n' := rfl
  have hcap : yarnCapture ('y' :: 'a' :: 'r' :: 'n' :: '\n' :: (next ++ s2)) = next :=
    takeWhile_append_term next s2 hnext hs2
  rw [if_pos (by rw [em]; rfl)]
  rw [hcap]
  have e2 : ('a' :: 'r' :: 'n' :: '\n' :: (next ++ s2)) =
      ('a' :: 'r' :: 'n' :: '\n' :: next) ++ s2 := by
    simp
  have e3 : 4 + next.length = ('a' :: 'r' :: 'n' :: '\n' :: next).length := by
    simp
    omega
  rw [e2, e3, yarnScanGo_skip]
  have e4 : ('a' :: 'r' :: 'n' :: '\n' :: next).foldl (fun _ d => isLineTerm d) false = false := by
    show next.foldl (fun _ d => isLineTerm d) (isLineTerm '\n') = false
    rw [foldl_lineTerm_init next (isLineTerm '\n') false hne]
    exact foldl_lineTerm_false next hnext
  rw [e4]

/-! ## Claim C1 -/

/-- C1, counterexample to the claim as stated: a line bearing a marker
that is not a whole-line comment (`x @test remove-current-line`) is not
a directive, so `applyDirectives` keeps it and the output contains the
marker; likewise a stray whole-line `// @test remove-block-end`
directive met outside any block is kept verbatim, so its marker also
survives. -/
theorem claim1_counterexample :
    runLines cFamily false ["x @test remove-current-line".data] =
        .ok ["x @test remove-current-line".data] ∧
      containsMarker "x @test remove-current-line".data = true ∧
      runLines cFamily false ["// @test remove-block-end".data] =
        .ok ["// @test remove-block-end".data] ∧
      containsMarker "// @test remove-block-end".data = true :=
  ⟨rfl, rfl, rfl, rfl⟩

/-- C1, amended: for every document in which every line containing one
of the four marker strings is classified as a directive, and in which
the engine never meets a remove-block-end directive outside a block,
every line of a successful `applyDirectives` output is free of all four
marker strings. -/
theorem claim1_marker_free (syn : SynDef) (doc out : List Line)
    (hm : ∀ l ∈ doc, containsMarker l = true → classify syn l ≠ none)
    (hstray : strayEnds syn false doc = false)
    (hrun : runLines syn false doc = .ok out) :
    ∀ l ∈ out, containsMarker l = false :=
  runLines_marker_free false doc hm hstray out hrun

/-- C1, witness: the amended theorem applied to a concrete two-line
document whose directive is consumed. -/
theorem claim1_witness : containsMarker "keep this line".data = false :=
  claim1_marker_free cFamily
    ["// @test remove-current-line".data, "keep this line".data]
    ["keep this line".data] (by decide) rfl rfl
    "keep this line".data (List.mem_singleton.mpr rfl)

/-! ## Claim C2 -/

/-- C2, counterexample to the claim as stated: in a document with a
block span followed by a remove-current-line directive, the directive
line lies outside the block span but is deleted as well, so not every
line outside the span is left unchanged. -/
theorem claim2_counterexample :
    classify cFamily "// @test remove-current-line".data = some .RemoveCurrentLine ∧
      runLines cFamily false
        ["// @test remove-block-start".data, "inside".data,
          "// @test remove-block-end".data, "// @test remove-current-line".data] =
        .ok [] :=
  ⟨rfl, rfl⟩

/-- C2, amended: for every comment syntax, if a document consists of
non-directive lines, a remove-block-start line, lines none of which is a
remove-block-end directive, the first remove-block-end line, and further
non-directive lines, then `applyDirectives` deletes the start marker,
everything strictly between the markers (directive or not) and the end
marker, and keeps every line outside the span unchanged. -/
theorem claim2_block_removal (syn : SynDef) (pre mid post : List Line) (bs be : Line)
    (hbs : classify syn bs = some .RemoveBlockStart)
    (hbe : classify syn be = some .RemoveBlockEnd)
    (hpre : ∀ l ∈ pre, classify syn l = none)
    (hmid : ∀ l ∈ mid, classify syn l ≠ some .RemoveBlockEnd)
    (hpost : ∀ l ∈ post, classify syn l = none) :
    runLines syn false (pre ++ bs :: (mid ++ be :: post)) = .ok (pre ++ post) := by
  rw [runLines_inert_append _ hpre]
  rw [runLines_start _ hbs]
  rw [runLines_block_skip _ hmid]
  rw [runLines_end_inblock _ hbe]
  rw [runLines_inert hpost]

/-- C2, witness: the amended theorem applied to a concrete shell
document mirroring the YAML scenario of the spec. -/
theorem claim2_witness :
    runLines shellSyn false
      ["env:".data, "# @test remove-block-start".data, "a: 1".data, "b: 2".data,
        "# @test remove-block-end".data, "done".data] =
      .ok ["env:".data, "done".data] :=
  claim2_block_removal shellSyn ["env:".data] ["a: 1".data, "b: 2".data] ["done".data]
    "# @test remove-block-start".data "# @test remove-block-end".data rfl rfl
    (by decide) (by decide) (by decide)

/-! ## Claim C3 -/

/-- C3, counterexample to the claim as stated: when a remove-next-line
directive is itself the line deleted by a preceding remove-next-line
directive, the line immediately following the second directive survives,
so not every line classifying as remove-next-line takes its successor
with it. -/
theorem claim3_counterexample :
    classify cFamily "// @test remove-next-line".data = some .RemoveNextLine ∧
      runLines cFamily false
        ["// @test remove-next-line".data, "// @test remove-next-line".data, "x".data] =
        .ok ["x".data] :=
  ⟨rfl, rfl⟩

/-- C3, amended: a remove-next-line directive processed in the normal
state (here: surrounded by non-directive lines) deletes itself and the
immediately following line when one exists, and when it is the final
line of the document only the directive is deleted and the run still
succeeds; surrounding non-directive lines are kept unchanged. -/
theorem claim3_next_line (syn : SynDef) (pre post : List Line) (d x : Line)
    (hd : classify syn d = some .RemoveNextLine)
    (hpre : ∀ l ∈ pre, classify syn l = none)
    (hpost : ∀ l ∈ post, classify syn l = none) :
    runLines syn false (pre ++ d :: x :: post) = .ok (pre ++ post) ∧
      runLines syn false (pre ++ [d]) = .ok pre := by
  constructor
  · rw [runLines_inert_append _ hpre, runLines_next_cons x post hd, runLines_inert hpost]
  · rw [runLines_inert_append _ hpre, runLines_next_nil hd]
    simp

/-- C3, witness: the amended theorem applied to a concrete document in
which the directive deletes itself and its successor. -/
theorem claim3_witness :
    runLines cFamily false
      ["a".data, "// @test remove-next-line".data, "b".data, "c".data] =
      .ok ["a".data, "c".data] :=
  (claim3_next_line cFamily ["a".data] ["c".data] "// @test remove-next-line".data "b".data
    rfl (by decide) (by decide)).1

/-! ## Claim C4 -/

/-- C4, counterexample to the claim as stated: in the three-line
document whose second line is the whole-line comment
`/* @test remove-current-line */`, if the first line happens to be a
remove-next-line directive then the output is only the third line, not
lines 1 and 3. -/
theorem claim4_counterexample :
    classify cFamily "/* @test remove-current-line */".data = some .RemoveCurrentLine ∧
      runLines cFamily false
        ["// @test remove-next-line".data, "/* @test remove-current-line */".data,
          "third".data] =
        .ok ["third".data] ∧
      ["third".data] ≠
        ["// @test remove-next-line".data, "third".data] :=
  ⟨rfl, rfl, by decide⟩

/-- C4, amended: every successful `applyDirectives` run deletes every
line classifying as remove-current-line and keeps the surviving lines
verbatim and in order (the output is a subsequence of the input); in
particular a three-line document whose second line is the whole-line
comment `/* @test remove-current-line */` and whose first and third
lines are not directives yields exactly lines 1 and 3 unchanged. -/
theorem claim4_current_line :
    (∀ (syn : SynDef) (doc out : List Line), runLines syn false doc = .ok out →
      out.Sublist doc ∧ ∀ l ∈ out, classify syn l ≠ some .RemoveCurrentLine) ∧
      (∀ l1 l3 : Line, classify cFamily l1 = none → classify cFamily l3 = none →
        runLines cFamily false [l1, "/* @test remove-current-line */".data, l3] =
          .ok [l1, l3]) := by
  constructor
  · intro syn doc out h
    obtain ⟨hs, hk⟩ := runLines_ok_shape false doc out h
    refine ⟨hs, fun l hl => ?_⟩
    rcases hk l hl with hc | hc <;> simp [hc]
  · intro l1 l3 h1 h3
    have hmid : classify cFamily "/* @test remove-current-line */".data =
        some .RemoveCurrentLine := rfl
    have hinner : runLines cFamily false ("/* @test remove-current-line */".data :: [l3]) =
        runLines cFamily false [l3] := runLines_current [l3] hmid
    have hl3 : runLines cFamily false [l3] = .ok [l3] := runLines_inert (by simp [h3])
    exact runLines_keep_ok (Or.inl h1) (hinner.trans hl3)

/-- C4, witness: the amended theorem applied to a concrete three-line
document. -/
theorem claim4_witness :
    runLines cFamily false
      ["alpha".data, "/* @test remove-current-line */".data, "omega".data] =
      .ok ["alpha".data, "omega".data] :=
  claim4_current_line.2 "alpha".data "omega".data rfl rfl

/-! ## Claim C5 -/

/-- C5, counterexample to the claim as stated: for the block-only markup
syntax, deleting the span `<!--x-->` from `<!<!--x-->--` joins the kept
fragments `<!` and `--` into `<!--`, so the result of `stripComments`
still contains a comment-opening token and is not comment-free. -/
theorem claim5_counterexample :
    stripComments "markup" "<!<!--x-->--".data = .ok "<!--".data ∧
      containsSub "<!--".data "<!--".data = true :=
  ⟨rfl, rfl⟩

/-- C5, amended: for the C-family syntax, `stripComments` deletes every
line-comment suffix and every block-comment span (also across lines) and
its output contains no occurrence of the line-comment token `//` nor of
the block-comment opener `/*`; for the shell syntax the output contains
no occurrence of `#`.  For the markup syntax, deleting a block span can
join surrounding fragments into a new `<!--` token. -/
theorem claim5_no_comment_tokens (t : List Char) :
    (∀ r, stripComments "c-family" t = .ok r →
      containsSub "//".data r = false ∧ containsSub "/*".data r = false) ∧
      (∀ r, stripComments "shell" t = .ok r → containsSub "#".data r = false) := by
  constructor
  · intro r h
    have e : stripComments "c-family" t =
        .ok (joinLines (stripLinesGo cFamily false (splitLines t))) := rfl
    rw [e] at h
    injection h with h2
    rw [← h2]
    constructor
    · exact joinLines_clean (by decide) (by decide) _
        (fun l hl => (stripLinesGo_cFamily_clean _ false l hl).1)
    · exact joinLines_clean (by decide) (by decide) _
        (fun l hl => (stripLinesGo_cFamily_clean _ false l hl).2)
  · intro r h
    have e : stripComments "shell" t =
        .ok (joinLines (stripLinesGo shellSyn false (splitLines t))) := rfl
    rw [e] at h
    injection h with h2
    rw [← h2]
    exact joinLines_clean (by decide) (by decide) _
      (fun l hl => stripLinesGo_shell_clean _ false l hl)

/-- C5, witness: the amended theorem applied to a concrete C-family
input with a line comment. -/
theorem claim5_witness :
    containsSub "//".data "ab ".data = false ∧ containsSub "/*".data "ab ".data = false :=
  (claim5_no_comment_tokens "ab // c".data).1 "ab ".data rfl

/-! ## Claim C6 -/

/-- C6: for every syntax identifier and input text, a successful
`stripComments` run preserves the number of lines: a line that becomes
empty collapses to the empty string but is not removed. -/
theorem claim6_line_count (sid : String) (t r : List Char)
    (h : stripComments sid t = .ok r) : lineCount r = lineCount t := by
  rw [stripComments] at h
  cases hl : lookup sid with
  | error e =>
    rw [hl] at h
    cases h
  | ok syn =>
    rw [hl] at h
    injection h with h2
    rw [← h2, lineCount, lineCount]
    have hnl : ∀ l ∈ stripLinesGo syn false (splitLines t), '\n' ∉ l :=
      stripLinesGo_no_newline _ false (splitLines_no_newline t)
    have hne : stripLinesGo syn false (splitLines t) ≠ [] := by
      intro hnil
      have hlen := @stripLinesGo_length syn (splitLines t) false
      rw [hnil] at hlen
      exact splitLines_ne_nil t (List.length_eq_zero.mp hlen.symm)
    rw [splitLines_joinLines hnl hne]
    exact stripLinesGo_length _ false

/-- C6, witness: the theorem applied to a concrete input whose block
comment spans two lines. -/
theorem claim6_witness : lineCount "a \n d".data = lineCount "a /* b\nc */ d".data :=
  claim6_line_count "c-family" "a /* b\nc */ d".data "a \n d".data rfl

/-! ## Claim C7 -/

/-- C7, counterexample to the claim as stated: a remove-block-start line
with no remove-block-end anywhere after it does not make the engine fail
when the start line is itself consumed by a preceding remove-next-line
directive; the run succeeds. -/
theorem claim7_counterexample :
    classify cFamily "// @test remove-block-start".data = some .RemoveBlockStart ∧
      runLines cFamily false
        ["// @test remove-next-line".data, "// @test remove-block-start".data] = .ok [] :=
  ⟨rfl, rfl⟩

/-- C7, amended: if a remove-block-start directive is actually processed
in the normal state (here: preceded only by non-directive lines) and no
line after it classifies as remove-block-end, `applyDirectives` fails
with `UnterminatedBlock` instead of returning output. -/
theorem claim7_unterminated (syn : SynDef) (pre rest : List Line) (s : Line)
    (hpre : ∀ l ∈ pre, classify syn l = none)
    (hs : classify syn s = some .RemoveBlockStart)
    (hrest : ∀ l ∈ rest, classify syn l ≠ some .RemoveBlockEnd) :
    runLines syn false (pre ++ s :: rest) = .error .UnterminatedBlock := by
  rw [runLines_inert_append _ hpre, runLines_start _ hs]
  have hskip := runLines_block_skip ([] : List Line) hrest
  rw [List.append_nil] at hskip
  rw [hskip]
  rfl

/-- C7, witness: the amended theorem applied to a concrete unterminated
shell document. -/
theorem claim7_witness :
    runLines shellSyn false
      ["a".data, "# @test remove-block-start".data, "b".data] =
      .error .UnterminatedBlock :=
  claim7_unterminated shellSyn ["a".data] ["b".data] "# @test remove-block-start".data
    (by decide) rfl (by decide)

/-! ## Claim C8 -/

/-- C8: for every syntax identifier not registered in the catalog, both
`applyDirectives` and `stripComments` fail with `UnknownSyntax` and
produce no output; for the registered identifiers the catalog lookup
succeeds. -/
theorem claim8_unknown_catalog :
    (∀ (sid : String) (t : List Char),
      sid ≠ "c-family" → sid ≠ "shell" → sid ≠ "markup" →
        applyDirectives sid t = .error .UnknownSyntax ∧
          stripComments sid t = .error .UnknownSyntax) ∧
      lookup "c-family" = .ok cFamily ∧ lookup "shell" = .ok shellSyn ∧
        lookup "markup" = .ok markupSyn := by
  refine ⟨?_, rfl, rfl, rfl⟩
  intro sid t h1 h2 h3
  have hl : lookup sid = .error .UnknownSyntax := by
    rw [lookup, if_neg h1, if_neg h2, if_neg h3]
  constructor
  · rw [applyDirectives, hl]
  · rw [stripComments, hl]

/-- C8, witness: the theorem applied to the unregistered identifier
`python`. -/
theorem claim8_witness :
    applyDirectives "python" "x".data = .error .UnknownSyntax ∧
      stripComments "python" "x".data = .error .UnknownSyntax :=
  claim8_unknown_catalog.1 "python" "x".data (by decide) (by decide) (by decide)

/-! ## Claim C9 -/

/-- C9, counterexample to the claim as stated: with install command
`npm install`, the readme rewrite replaces only the first occurrence of
the bare string `yarn`, so in `yarn yarn` the second occurrence
survives; and the line `yarn test` is consumed by that first string
replacement, so it is not rewritten to the packager run command. -/
theorem claim9_counterexample :
    updatePackagerCommandsInReadme "npm install".data demoRunCmd "yarn yarn".data =
        "npm install yarn".data ∧
      containsSub yarnWord "npm install yarn".data = true ∧
      updatePackagerCommandsInReadme "npm install".data demoRunCmd "yarn test".data =
        "npm install test".data ∧
      "npm install test".data ≠ demoRunCmd "test".data :=
  ⟨rfl, rfl, rfl, by decide⟩

/-- C9, amended: `replaceMaestroBundleIds` applies the global regex
built from the old bundle identifier, whose dots match any
non-line-terminator character: it rewrites the leftmost match and
continues after it, so a single left-to-right pass replaces every
non-overlapping match, and it leaves match-free content unchanged;
`updatePackagerCommandsInReadme` replaces only the first occurrence of
the bare string `yarn` with the install command, and its multiline regex
then rewrites every match of `^yarn\s(.*)$`: a line `yarn <cmd>` becomes
the run command for `<cmd>`, and a line consisting of exactly `yarn` is
merged with its following line into the run command for that line. -/
theorem claim9_substitutions :
    (∀ (oldB newB pre mid suf : List Char), oldB ≠ [] →
      mid.length = oldB.length → regexStartsW oldB mid = true →
      (∀ n, n < pre.length → regexStartsW oldB (List.drop n (pre ++ mid ++ suf)) = false) →
      replaceMaestroBundleIds oldB newB (pre ++ mid ++ suf) =
        pre ++ newB ++ replaceMaestroBundleIds oldB newB suf) ∧
      (∀ (oldB newB content : List Char), regexContains oldB content = false →
        replaceMaestroBundleIds oldB newB content = content) ∧
      (∀ (pat repl pre suf : List Char), pat ≠ [] →
        (∀ n, n < pre.length → startsW pat (List.drop n (pre ++ pat ++ suf)) = false) →
        replaceFirst pat repl (pre ++ pat ++ suf) = pre ++ repl ++ suf) ∧
      (∀ (runCmd : List Char → List Char) (c : Char) (cmd s : List Char),
        jsWhitespace c = true → isLineTerm c = false →
        (∀ d ∈ cmd, isLineTerm d = false) → headTerm s = true →
        yarnScanGo runCmd true 0 (yarnWord ++ c :: (cmd ++ s)) =
          runCmd cmd ++ yarnScanGo runCmd false 0 s) ∧
      (∀ (runCmd : List Char → List Char) (next s2 : List Char),
        (∀ d ∈ next, isLineTerm d = false) → next ≠ [] → headTerm s2 = true →
        yarnScanGo runCmd true 0 (yarnWord ++ '\n' :: (next ++ s2)) =
          runCmd next ++ yarnScanGo runCmd false 0 s2) := by
  refine ⟨?_, ?_, ?_, ?_, ?_⟩
  · intro oldB newB pre mid suf h1 h2 h3 h4
    rw [replaceMaestroBundleIds, replaceMaestroBundleIds]
    exact replaceAll_leftmost oldB newB pre mid suf h1 h2 h3 h4
  · intro oldB newB content h
    rw [replaceMaestroBundleIds]
    exact replaceAll_no_match oldB newB content h
  · exact fun pat repl pre suf h1 h2 => replaceFirst_leftmost pat repl pre suf h1 h2
  · exact fun runCmd c cmd s h1 h2 h3 h4 => yarnScanGo_line runCmd c cmd s h1 h2 h3 h4
  · exact fun runCmd next s2 h1 h2 h3 => yarnScanGo_merge runCmd next s2 h1 h2 h3

/-- C9, witness: the bundle-identifier part applied to concrete content
in which the identifier dot of `com.old` matches the literal `:` of
`com:old`, as the regex built by the source does. -/
theorem claim9_witness :
    replaceMaestroBundleIds "com.old".data "com.new".data
        ("id: ".data ++ "com:old".data ++ " x".data) =
      "id: ".data ++ "com.new".data ++
        replaceMaestroBundleIds "com.old".data "com.new".data " x".data :=
  claim9_substitutions.1 "com.old".data "com.new".data "id: ".data "com:old".data " x".data
    (by decide) (by decide) (by decide) (by decide)

/-! ## Claim C10 -/

/-- C10: `isAndroidInstalled` returns true exactly when the
`ANDROID_HOME` environment variable is non-blank and the path
`${ANDROID_HOME}/tools` exists and is a directory; in every other case
it returns false (the embedding is a total function, so no exception is
possible). -/
theorem claim10_android (androidHome : Option String)
    (fsExists : List Char → ExistsResult) :
    isAndroidInstalled androidHome fsExists = true ↔
      (isBlank androidHome = false ∧
        fsExists ((androidHome.getD "").data ++ "/tools".data) = ExistsResult.dir) := by
  rw [isAndroidInstalled]
  constructor
  · intro h
    rcases Bool.and_eq_true_iff.mp h with ⟨h1, h2⟩
    refine ⟨by simpa using h1, by simpa using h2⟩
  · intro h
    rcases h with ⟨h1, h2⟩
    simp [h1, h2]

end Ignite
